import Mathlib

/-!
Shallow embedding of the `UniversalRenderer` sketched in
`COMPLETE_PRODUCT_ROADMAP_V2.md` (`backend/rendering/universal_renderer.py`):
a design-system-bound renderer that validates a specification tree against
token/component indexes and compiles it to JSX-like markup.

Python dictionaries are modelled as insertion-ordered association lists with
overwrite-on-insert (`dictInsert`), Python sets as duplicate-free lists
(`setAdd`), raised `ValueError`s as `Except RenderError`, and prop values as
the closed variant type `Value` (strings, booleans, integer numbers).
-/

namespace AgenticDS

/-- A prop value of a specification node: the Python code distinguishes
`str`, `bool` and numeric values in `_resolve_props`. -/
inductive Value where
  | str (s : String)
  | bool (b : Bool)
  | int (n : Int)
deriving Repr, DecidableEq

/-- A specification node: `type`, `props`, `children`, `content`
(missing `content` is the empty string, as in `spec.get('content', '')`;
missing `children` is the empty list). -/
inductive Node where
  | mk (type : String) (props : List (String × Value)) (children : List Node)
      (content : String)
deriving Repr

def Node.type : Node → String
  | .mk t _ _ _ => t

def Node.props : Node → List (String × Value)
  | .mk _ p _ _ => p

def Node.children : Node → List Node
  | .mk _ _ c _ => c

def Node.content : Node → String
  | .mk _ _ _ c => c

/-- Induction over the nested inductive `Node`, with a joint motive for
child lists. -/
def Node.myInduction (P : Node → Prop) (Q : List Node → Prop)
    (hnode : ∀ t props children content, Q children → P (.mk t props children content))
    (hnil : Q []) (hcons : ∀ c rest, P c → Q rest → Q (c :: rest)) :
    (∀ n, P n) ∧ (∀ l, Q l) :=
  ⟨fun n => @Node.rec P Q hnode hnil hcons n,
   fun l => List.rec hnil (fun c rest ih => hcons c rest
     (@Node.rec P Q hnode hnil hcons c) ih) l⟩

/-- A token record: only its `name` and (optional) `value` fields are read
by the renderer (`token.get('name')`, `token.get('value', token_name)`). -/
structure Token where
  name : String
  value : Option String
deriving Repr, DecidableEq

/-- A component record: only its `name` field is read by the renderer. -/
structure Component where
  name : String
deriving Repr, DecidableEq

/-- The `tokens` collection of a design system, with the three
sub-collections `_index_tokens` enumerates, in its enumeration order. -/
structure TokenCollections where
  colors : List Token
  typography : List Token
  spacing : List Token
deriving Repr

/-- A design system as read by the renderer: a `tokens` collection and a
`components` sequence. -/
structure DesignSystem where
  tokens : TokenCollections
  components : List Component
deriving Repr

/-- A Python `dict` keyed by strings: an insertion-ordered association
list, with at most one binding per key maintained by `dictInsert`. -/
abbrev Dict (α : Type) := List (String × α)

/-- `d[k] = v`: overwrite the binding in place if `k` is present
(CPython keeps the original position), else append it. -/
def dictInsert (d : Dict α) (k : String) (v : α) : Dict α :=
  if d.any (fun p => p.1 == k) then
    d.map (fun p => if p.1 == k then (k, v) else p)
  else d ++ [(k, v)]

/-- `d.get(k)`: the first binding of `k`. -/
def dictGet? (d : Dict α) (k : String) : Option α :=
  (d.find? (fun p => p.1 == k)).map Prod.snd

/-- `k in d`. -/
def dictContains (d : Dict α) (k : String) : Bool :=
  d.any (fun p => p.1 == k)

/-- `_index_tokens`: flatten `colors`, then `typography`, then `spacing`
into one name-keyed dict (`index[token.get('name')] = token`). -/
def indexTokens (ds : DesignSystem) : Dict Token :=
  ((ds.tokens.colors ++ ds.tokens.typography) ++ ds.tokens.spacing).foldl
    (fun idx t => dictInsert idx t.name t) []

/-- `_index_components`: flatten the component list into a name-keyed dict
(`index[component.get('name')] = component`). -/
def indexComponents (ds : DesignSystem) : Dict Component :=
  ds.components.foldl (fun idx c => dictInsert idx c.name c) []

/-- `'/' in s` for the one-character separator: membership of `'/'` among
the characters of `s`. -/
def containsSlash (s : String) : Bool := s.data.contains '/'

/-- `_is_token_reference`: a string value containing `'/'`. -/
def isTokenReference : Value → Bool
  | .str s => containsSlash s
  | _ => false

/-- The two `ValueError` families the renderer raises. -/
inductive RenderError where
  | unknownComponent (name : String)
  | unknownToken (name : String)
deriving Repr, DecidableEq

/-- `_component_exists`. -/
def componentExists (comps : Dict Component) (name : String) : Bool :=
  dictContains comps name

/-- `_resolve_token`: look the token up, fall back to the token name when
the record has no `value` field, raise when the token is absent. -/
def resolveToken (toks : Dict Token) (tokenName : String) : Except RenderError String :=
  match dictGet? toks tokenName with
  | some t => .ok (t.value.getD tokenName)
  | none => .error (.unknownToken tokenName)

/-- The `parts` list built by `_resolve_props`: one attribute string per
rendered prop, in prop order; token references are resolved (raising on a
missing token), `True` booleans render as the bare key, `False` booleans
are dropped, numbers render unquoted. -/
def resolvePropsParts (toks : Dict Token) :
    List (String × Value) → Except RenderError (List String)
  | [] => .ok []
  | (k, v) :: rest =>
    match v with
    | .str s =>
      if containsSlash s then
        match resolveToken toks s with
        | .error e => .error e
        | .ok tv =>
          match resolvePropsParts toks rest with
          | .error e => .error e
          | .ok parts => .ok ((k ++ "=\"" ++ tv ++ "\"") :: parts)
      else
        match resolvePropsParts toks rest with
        | .error e => .error e
        | .ok parts => .ok ((k ++ "=\"" ++ s ++ "\"") :: parts)
    | .bool b =>
      match resolvePropsParts toks rest with
      | .error e => .error e
      | .ok parts => .ok (if b then k :: parts else parts)
    | .int n =>
      match resolvePropsParts toks rest with
      | .error e => .error e
      | .ok parts => .ok ((k ++ "=" ++ toString n) :: parts)

/-- `_resolve_props`: `' '.join(parts)`. -/
def resolveProps (toks : Dict Token) (props : List (String × Value)) :
    Except RenderError String :=
  match resolvePropsParts toks props with
  | .error e => .error e
  | .ok parts => .ok (String.intercalate " " parts)

/-- `'  ' * depth`. -/
def indent (depth : Nat) : String := String.join (List.replicate depth "  ")

mutual

/-- `specification_to_jsx`: check the component exists, resolve the props,
then emit the children block, the inlined content, or a self-closing
element. -/
def specificationToJsx (comps : Dict Component) (toks : Dict Token) :
    (spec : Node) → (depth : Nat) → Except RenderError String
  | .mk t props children content, depth =>
    if !componentExists comps t then .error (.unknownComponent t)
    else
      match resolveProps toks props with
      | .error e => .error e
      | .ok jsxProps =>
        if !children.isEmpty then
          match childrenToJsx comps toks children (depth + 1) with
          | .error e => .error e
          | .ok lines =>
            .ok (indent depth ++ "<" ++ t ++ " " ++ jsxProps ++ ">\n" ++
              String.intercalate "\n" lines ++ "\n" ++ indent depth ++ "</" ++ t ++ ">")
        else if content ≠ "" then
          .ok (indent depth ++ "<" ++ t ++ " " ++ jsxProps ++ ">" ++ content ++
            "</" ++ t ++ ">")
        else
          .ok (indent depth ++ "<" ++ t ++ " " ++ jsxProps ++ " />")
  termination_by structural spec => spec

/-- The list comprehension
`[self.specification_to_jsx(child, depth + 1) for child in children]`,
evaluated left to right with the first raised error escaping. -/
def childrenToJsx (comps : Dict Component) (toks : Dict Token) :
    (cs : List Node) → (depth : Nat) → Except RenderError (List String)
  | [], _ => .ok []
  | c :: rest, depth =>
    match specificationToJsx comps toks c depth with
    | .error e => .error e
    | .ok line =>
      match childrenToJsx comps toks rest depth with
      | .error e => .error e
      | .ok lines => .ok (line :: lines)
  termination_by structural cs => cs

end

/-- The props loop of `validate_specification.validate_node`: the first
token-reference-shaped value absent from the token index raises. -/
def validateProps (toks : Dict Token) :
    List (String × Value) → Except RenderError Unit
  | [] => .ok ()
  | (_, v) :: rest =>
    match v with
    | .str s =>
      if containsSlash s && !dictContains toks s then .error (.unknownToken s)
      else validateProps toks rest
    | _ => validateProps toks rest

mutual

/-- `validate_specification.validate_node`: component check, then props,
then the children in order. -/
def validateNode (comps : Dict Component) (toks : Dict Token) :
    (n : Node) → Except RenderError Unit
  | .mk t props children _ =>
    if !componentExists comps t then .error (.unknownComponent t)
    else
      match validateProps toks props with
      | .error e => .error e
      | .ok _ => validateChildren comps toks children
  termination_by structural n => n

/-- The `for child in children: validate_node(child)` loop. -/
def validateChildren (comps : Dict Component) (toks : Dict Token) :
    (cs : List Node) → Except RenderError Unit
  | [] => .ok ()
  | c :: rest =>
    match validateNode comps toks c with
    | .error e => .error e
    | .ok _ => validateChildren comps toks rest
  termination_by structural cs => cs

end

/-- `validate_specification` (the Python function returns `True` on
success; success is the `.ok` case here). -/
def validateSpecification (comps : Dict Component) (toks : Dict Token)
    (spec : Node) : Except RenderError Unit :=
  validateNode comps toks spec

/-- `set.add`: append unless already present (a Python set modelled as a
duplicate-free list). -/
def setAdd (s : List String) (x : String) : List String :=
  if s.contains x then s else s ++ [x]

/-- The props loop of `extract_tokens_from_spec.extract_from_node`: add
each token-reference-shaped prop value that is present in the token
index. -/
def tokenRefsOfProps (toks : Dict Token) (props : List (String × Value))
    (acc : List String) : List String :=
  props.foldl (fun a p =>
    match p.2 with
    | .str s => if containsSlash s && dictContains toks s then setAdd a s else a
    | _ => a) acc

mutual

/-- `extract_tokens_from_spec.extract_from_node`, with the accumulated
set made explicit. -/
def extractTokensNode (toks : Dict Token) : (n : Node) → List String → List String
  | .mk _ props children _, acc =>
    extractTokensChildren toks children (tokenRefsOfProps toks props acc)
  termination_by structural n => n

def extractTokensChildren (toks : Dict Token) :
    (cs : List Node) → List String → List String
  | [], acc => acc
  | c :: rest, acc => extractTokensChildren toks rest (extractTokensNode toks c acc)
  termination_by structural cs => cs

end

/-- `extract_tokens_from_spec`. -/
def extractTokensFromSpec (toks : Dict Token) (spec : Node) : List String :=
  extractTokensNode toks spec []

mutual

/-- `extract_components_from_spec.extract_from_node`: add the node type
when it is truthy (non-empty) and present in the component index. -/
def extractComponentsNode (comps : Dict Component) :
    (n : Node) → List String → List String
  | .mk t _ children _, acc =>
    extractComponentsChildren comps children
      (if t ≠ "" && componentExists comps t then setAdd acc t else acc)
  termination_by structural n => n

def extractComponentsChildren (comps : Dict Component) :
    (cs : List Node) → List String → List String
  | [], acc => acc
  | c :: rest, acc =>
    extractComponentsChildren comps rest (extractComponentsNode comps c acc)
  termination_by structural cs => cs

end

/-- `extract_components_from_spec`. -/
def extractComponentsFromSpec (comps : Dict Component) (spec : Node) : List String :=
  extractComponentsNode comps spec []

/-- The dictionary `render_design_specification` returns. -/
structure RenderResult where
  jsx : String
  specification : Node
  tokensUsed : List String
  componentsUsed : List String
  valid : Bool
deriving Repr

/-- `render_design_specification`: validate, convert to JSX, extract
metadata; any raised error escapes before the result is assembled. -/
def renderDesignSpecification (ds : DesignSystem) (spec : Node) :
    Except RenderError RenderResult :=
  match validateSpecification (indexComponents ds) (indexTokens ds) spec with
  | .error e => .error e
  | .ok _ =>
    match specificationToJsx (indexComponents ds) (indexTokens ds) spec 0 with
    | .error e => .error e
    | .ok jsx =>
      .ok ⟨jsx, spec, extractTokensFromSpec (indexTokens ds) spec,
        extractComponentsFromSpec (indexComponents ds) spec, true⟩

mutual

/-- The node itself followed by all of its descendants, in depth-first
pre-order: the traversal order of `validate_specification`. -/
def allNodes : (n : Node) → List Node
  | .mk t props children content =>
    .mk t props children content :: allNodesChildren children
  termination_by structural n => n

def allNodesChildren : (cs : List Node) → List Node
  | [] => []
  | c :: rest => allNodes c ++ allNodesChildren rest
  termination_by structural cs => cs

end

/-- The token-reference-shaped prop values of one node, in prop order. -/
def nodeTokenRefs (props : List (String × Value)) : List String :=
  props.filterMap (fun p =>
    match p.2 with
    | .str s => if containsSlash s then some s else none
    | _ => none)

/-- All token-reference-shaped prop values anywhere in the tree. -/
def allTokenRefs (n : Node) : List String :=
  (allNodes n).flatMap (fun m => nodeTokenRefs m.props)

/-- All node types anywhere in the tree. -/
def allTypes (n : Node) : List String :=
  (allNodes n).map Node.type

/-- Stated from the spec sentence: a prop value is acceptable when it is
not token-reference-shaped, or it is and the token index has its name. -/
def propOk (toks : Dict Token) (v : Value) : Bool :=
  match v with
  | .str s => !containsSlash s || dictContains toks s
  | _ => true

/-- Stated from the spec sentence: one node is acceptable when its type
names a component and each of its prop values is acceptable. -/
def nodeOk (comps : Dict Component) (toks : Dict Token) (n : Node) : Bool :=
  componentExists comps n.type && n.props.all (fun p => propOk toks p.2)

/-- Stated from the spec sentence: every node of the tree is acceptable. -/
def specValid (comps : Dict Component) (toks : Dict Token) (s : Node) : Bool :=
  (allNodes s).all (nodeOk comps toks)

/-- One membership check the validator performs: a component-existence
check or a token-existence check. -/
inductive Check where
  | comp (name : String)
  | tok (name : String)
deriving Repr, DecidableEq

/-- The token checks one node's props give rise to, in prop order. -/
def propChecks : List (String × Value) → List Check
  | [] => []
  | (_, v) :: rest =>
    match v with
    | .str s => if containsSlash s then .tok s :: propChecks rest else propChecks rest
    | _ => propChecks rest

mutual

/-- Every check the validator performs on a tree, in the order it
performs them: the node type, then the node props, then the children. -/
def nodeChecks : (n : Node) → List Check
  | .mk t props children _ => .comp t :: (propChecks props ++ childChecks children)
  termination_by structural n => n

def childChecks : (cs : List Node) → List Check
  | [] => []
  | c :: rest => nodeChecks c ++ childChecks rest
  termination_by structural cs => cs

end

/-- Whether a check fails against the given indexes. -/
def checkFails (comps : Dict Component) (toks : Dict Token) : Check → Bool
  | .comp n => !componentExists comps n
  | .tok n => !dictContains toks n

/-- The error a failing check raises. -/
def errOfCheck : Check → RenderError
  | .comp n => .unknownComponent n
  | .tok n => .unknownToken n

mutual

/-- Replace every `content` field in the tree by the empty string. -/
def eraseContent : (n : Node) → Node
  | .mk t props children _ => .mk t props (eraseContentChildren children) ""
  termination_by structural n => n

def eraseContentChildren : (cs : List Node) → List Node
  | [] => []
  | c :: rest => eraseContent c :: eraseContentChildren rest
  termination_by structural cs => cs

end

/-- The attribute strings a literal (non-token-reference) prop value
produces in `_resolve_props`, independent of any token index. -/
def literalParts (k : String) : Value → List String
  | .str s => [k ++ "=\"" ++ s ++ "\""]
  | .bool b => if b then [k] else []
  | .int n => [k ++ "=" ++ toString n]

/-- Stated from the spec: the resolved `value` field of the referenced
token, with the token name itself as fallback when the record has no
`value` field (the total success-path version of `_resolve_token`; the
`none` branch is unreachable when the reference is present in the
index). -/
def resolvedTokenValue (toks : Dict Token) (s : String) : String :=
  match dictGet? toks s with
  | some tk => tk.value.getD s
  | none => s

/-- Stated from the spec sentence: the attribute strings a props list
should produce — literal values pass through unchanged, token-reference
values are replaced by the referenced token's resolved value. -/
def expectedPropParts (toks : Dict Token) (props : List (String × Value)) :
    List String :=
  props.flatMap (fun p =>
    match p.2 with
    | .str s =>
      if containsSlash s then [p.1 ++ "=\"" ++ resolvedTokenValue toks s ++ "\""]
      else literalParts p.1 (.str s)
    | v => literalParts p.1 v)

/-- Example design system used by the spec's worked examples: a color
token `primary/500 = "#3B82F6"` and components `Button`, `Container`,
`Text`. -/
def exampleDS : DesignSystem :=
  ⟨⟨[⟨"primary/500", some "#3B82F6"⟩], [], []⟩, [⟨"Button"⟩, ⟨"Container"⟩, ⟨"Text"⟩]⟩

/-- `{type: "Button", props: {backgroundColor: "primary/500"}, content: "Go"}` -/
def exampleButton : Node :=
  .mk "Button" [("backgroundColor", .str "primary/500")] [] "Go"

/-- `{type:"Container", children:[{type:"Text", content:"Hi"}]}` -/
def exampleTree : Node :=
  .mk "Container" [] [.mk "Text" [] [] "Hi"] ""

/-! ## Dictionary lemmas -/

theorem dictContains_eq_isSome (d : Dict A) (k : String) :
    dictContains d k = (dictGet? d k).isSome := by
  induction d with
  | nil => rfl
  | cons q rest ih =>
    by_cases h : (q.1 == k) = true
    · simp [dictContains, dictGet?, List.find?_cons_of_pos _ h, h]
    · rw [Bool.not_eq_true] at h
      have hrw := List.find?_cons_of_neg (p := fun q : String × A => q.1 == k)
        (a := q) rest (by simp [h])
      simp only [dictContains, dictGet?, List.any_cons, h, Bool.false_or, hrw]
      exact ih

theorem find?_map_overwrite_hit (d : Dict A) (n : String) (v : A)
    (h : d.any (fun q => q.1 == n) = true) :
    (d.map (fun q => if q.1 == n then (n, v) else q)).find? (fun q => q.1 == n) =
      some (n, v) := by
  induction d with
  | nil => simp at h
  | cons q rest ih =>
    by_cases hq : (q.1 == n) = true
    · rw [List.map_cons, if_pos hq]
      exact List.find?_cons_of_pos _ (by simp)
    · rw [Bool.not_eq_true] at hq
      rw [List.map_cons, if_neg (by simp [hq])]
      rw [List.find?_cons_of_neg (p := fun q : String × A => q.1 == n) _ (by simp [hq])]
      apply ih
      simpa [List.any_cons, hq] using h

theorem find?_map_overwrite_miss (d : Dict A) (n k : String) (v : A)
    (hk : k ≠ n) :
    (d.map (fun q => if q.1 == n then (n, v) else q)).find? (fun q => q.1 == k) =
      d.find? (fun q => q.1 == k) := by
  induction d with
  | nil => rfl
  | cons q rest ih =>
    by_cases hq : (q.1 == n) = true
    · have hq1 : q.1 = n := by simpa using hq
      have hqk : (q.1 == k) = false := by simp [hq1, Ne.symm hk]
      rw [List.map_cons, if_pos hq]
      rw [List.find?_cons_of_neg (p := fun q : String × A => q.1 == k) _ (by simp [Ne.symm hk]),
        List.find?_cons_of_neg (p := fun q : String × A => q.1 == k) _ (by simp [hqk])]
      exact ih
    · rw [Bool.not_eq_true] at hq
      rw [List.map_cons, if_neg (by simp [hq])]
      by_cases hqk : (q.1 == k) = true
      · rw [List.find?_cons_of_pos (p := fun q : String × A => q.1 == k) _ hqk,
          List.find?_cons_of_pos (p := fun q : String × A => q.1 == k) _ hqk]
      · rw [Bool.not_eq_true] at hqk
        rw [List.find?_cons_of_neg (p := fun q : String × A => q.1 == k) _ (by simp [hqk]),
          List.find?_cons_of_neg (p := fun q : String × A => q.1 == k) _ (by simp [hqk])]
        exact ih

theorem dictGet?_insert (d : Dict A) (n k : String) (v : A) :
    dictGet? (dictInsert d n v) k = if k = n then some v else dictGet? d k := by
  unfold dictInsert
  by_cases h : (d.any (fun q => q.1 == n)) = true
  · rw [if_pos h]
    by_cases hk : k = n
    · subst hk
      unfold dictGet?
      rw [find?_map_overwrite_hit d k v h, if_pos rfl]
      rfl
    · unfold dictGet?
      rw [find?_map_overwrite_miss d n k v hk, if_neg hk]
  · rw [if_neg h]
    rw [Bool.not_eq_true] at h
    by_cases hk : k = n
    · subst hk
      have hf : d.find? (fun q => q.1 == k) = none := by
        rw [List.find?_eq_none]
        intro x hx hpx
        have : d.any (fun q => q.1 == k) = true := List.any_eq_true.mpr ⟨x, hx, hpx⟩
        rw [h] at this
        exact Bool.false_ne_true this
      unfold dictGet?
      rw [List.find?_append, hf, Option.none_or, if_pos rfl,
        List.find?_cons_of_pos (p := fun q : String × A => q.1 == k) _ (by simp)]
      rfl
    · have hsing : ([(n, v)] : Dict A).find? (fun q => q.1 == k) = none := by
        rw [List.find?_eq_none]
        intro x hx hpx
        simp at hx
        rw [hx] at hpx
        simp at hpx
        exact hk hpx.symm
      unfold dictGet?
      rw [List.find?_append, hsing, Option.or_none, if_neg hk]

/-- Indexing a list of records by a name field, last write winning, is
`find?` over the reversed enumeration. -/
theorem dictGet?_index_fold (f : A → String) (l : List A) (d : Dict A) (k : String) :
    dictGet? (l.foldl (fun idx x => dictInsert idx (f x) x) d) k =
      (l.reverse.find? (fun x => f x == k)).or (dictGet? d k) := by
  induction l generalizing d with
  | nil => simp
  | cons a l ih =>
    simp only [List.foldl_cons, ih, List.reverse_cons, List.find?_append,
      Option.or_assoc]
    congr 1
    rw [dictGet?_insert]
    by_cases hk : k = f a
    · subst hk
      rw [if_pos rfl, List.find?_cons_of_pos (p := fun x : A => f x == f a) _ (by simp)]
      rfl
    · rw [if_neg hk, List.find?_cons_of_neg (p := fun x : A => f x == k) _ (by simp [Ne.symm hk])]
      rfl

/-! ## Index building (claim C8) -/

/-- C8: building the two indexes never fails (both builds are total
functions of the design system, side-effect-free by construction), and a
name maps to the last record bearing it in enumeration order — colors,
then typography, then spacing for tokens; declaration order for
components. -/
theorem indexBuild_lastWriteWins (ds : DesignSystem) (k : String) :
    dictGet? (indexTokens ds) k =
      ((ds.tokens.colors ++ ds.tokens.typography ++ ds.tokens.spacing).reverse.find?
        (fun t => t.name == k)) ∧
    dictGet? (indexComponents ds) k =
      ds.components.reverse.find? (fun c => c.name == k) := by
  constructor
  · rw [indexTokens, dictGet?_index_fold]
    simp [dictGet?, Option.or_none, List.append_assoc]
  · rw [indexComponents, dictGet?_index_fold]
    simp [dictGet?, Option.or_none]

/-! ## Validation success characterisation (claim C1) -/

theorem validateProps_ok_iff (toks : Dict Token) (props : List (String × Value)) :
    validateProps toks props = .ok () ↔
      props.all (fun p => propOk toks p.2) = true := by
  induction props with
  | nil => simp [validateProps]
  | cons p rest ih =>
    obtain ⟨k, v⟩ := p
    cases v with
    | str s =>
      cases hcs : containsSlash s <;> cases hdc : dictContains toks s <;>
        simp [validateProps, propOk, hcs, hdc, ih]
    | bool b => simp [validateProps, propOk, ih]
    | int n => simp [validateProps, propOk, ih]

theorem validateNode_ok_iff (comps : Dict Component) (toks : Dict Token) :
    (∀ n, validateNode comps toks n = .ok () ↔
      (allNodes n).all (nodeOk comps toks) = true) ∧
    (∀ l, validateChildren comps toks l = .ok () ↔
      (allNodesChildren l).all (nodeOk comps toks) = true) := by
  refine Node.myInduction _ _ ?_ ?_ ?_
  · intro t props children content ihq
    by_cases hc : componentExists comps t = true
    · cases hvp : validateProps toks props with
      | error e =>
        have hall : props.all (fun p => propOk toks p.2) = false := by
          by_contra hcon
          rw [Bool.not_eq_false] at hcon
          rw [(validateProps_ok_iff toks props).mpr hcon] at hvp
          simp at hvp
        simp [validateNode, hc, hvp, allNodes, nodeOk, hall, Node.type, Node.props]
      | ok u =>
        cases u
        have hall : props.all (fun p => propOk toks p.2) = true :=
          (validateProps_ok_iff toks props).mp hvp
        simpa [validateNode, hc, hvp, allNodes, nodeOk, hall, Node.type, Node.props]
          using ihq
    · rw [Bool.not_eq_true] at hc
      simp [validateNode, hc, allNodes, nodeOk, Node.type]
  · simp [validateChildren, allNodesChildren]
  · intro c rest ihc ihrest
    cases hvc : validateNode comps toks c with
    | error e =>
      have hfc : (allNodes c).all (nodeOk comps toks) = false := by
        by_contra hcon
        rw [Bool.not_eq_false] at hcon
        rw [ihc.mpr hcon] at hvc
        simp at hvc
      simp [validateChildren, hvc, allNodesChildren, List.all_append, hfc]
    | ok u =>
      cases u
      have hokc : (allNodes c).all (nodeOk comps toks) = true := ihc.mp hvc
      simpa [validateChildren, hvc, allNodesChildren, List.all_append, hokc]
        using ihrest

theorem propOk_iff (toks : Dict Token) (v : Value) :
    propOk toks v = true ↔
      ∀ s, v = .str s → containsSlash s = true → dictContains toks s = true := by
  cases v with
  | str s =>
    cases hcs : containsSlash s <;> cases hdc : dictContains toks s <;>
      simp [propOk, hcs, hdc]
  | bool b => simp [propOk]
  | int n => simp [propOk]

/-- C1: validation succeeds exactly when every node type in the tree is in
the component index and every prop value that is a string containing `/`
is in the token index; prop values that are not slash-containing strings
never cause failure (they impose no condition). -/
theorem validate_ok_iff_wellFormed (ds : DesignSystem) (s : Node) :
    validateSpecification (indexComponents ds) (indexTokens ds) s = .ok () ↔
      ∀ n ∈ allNodes s, componentExists (indexComponents ds) n.type = true ∧
        ∀ kv ∈ n.props, ∀ str, kv.2 = .str str → containsSlash str = true →
          dictContains (indexTokens ds) str = true := by
  rw [validateSpecification, (validateNode_ok_iff _ _).1 s]
  rw [List.all_eq_true]
  constructor
  · intro h n hn
    have := h n hn
    rw [nodeOk, Bool.and_eq_true, List.all_eq_true] at this
    exact ⟨this.1, fun kv hkv str hstr =>
      (propOk_iff _ kv.2).mp (this.2 kv hkv) str hstr⟩
  · intro h n hn
    rw [nodeOk, Bool.and_eq_true, List.all_eq_true]
    exact ⟨(h n hn).1, fun kv hkv => (propOk_iff _ kv.2).mpr ((h n hn).2 kv hkv)⟩

/-! ## First-error characterisation (claim C4) -/

/-- Stated from the spec sentence: surface the error of the first failing
check, in the order the checks are listed. -/
def firstFailure (comps : Dict Component) (toks : Dict Token)
    (cs : List Check) : Except RenderError Unit :=
  match cs.find? (checkFails comps toks) with
  | some c => .error (errOfCheck c)
  | none => .ok ()

theorem firstFailure_append (comps : Dict Component) (toks : Dict Token)
    (a b : List Check) :
    firstFailure comps toks (a ++ b) =
      match firstFailure comps toks a with
      | .error e => .error e
      | .ok _ => firstFailure comps toks b := by
  unfold firstFailure
  rw [List.find?_append]
  cases a.find? (checkFails comps toks) <;> simp [Option.or]

theorem validateProps_eq_firstFailure (comps : Dict Component) (toks : Dict Token)
    (props : List (String × Value)) :
    validateProps toks props = firstFailure comps toks (propChecks props) := by
  induction props with
  | nil => rfl
  | cons p rest ih =>
    obtain ⟨k, v⟩ := p
    cases v with
    | str s =>
      cases hcs : containsSlash s <;> cases hdc : dictContains toks s <;>
        simp [validateProps, propChecks, firstFailure, checkFails, errOfCheck,
          List.find?_cons, hcs, hdc, ih]
    | bool b => simp [validateProps, propChecks, firstFailure, ih]
    | int n => simp [validateProps, propChecks, firstFailure, ih]

theorem validateNode_eq_firstFailure (comps : Dict Component) (toks : Dict Token) :
    (∀ n, validateNode comps toks n = firstFailure comps toks (nodeChecks n)) ∧
    (∀ l, validateChildren comps toks l = firstFailure comps toks (childChecks l)) := by
  refine Node.myInduction _ _ ?_ ?_ ?_
  · intro t props children content ihq
    by_cases hc : componentExists comps t = true
    · have hskip : (checkFails comps toks (.comp t)) = false := by
        simp [checkFails, hc]
      rw [validateNode, nodeChecks, firstFailure,
        List.find?_cons_of_neg _ (by simp [hskip])]
      rw [← firstFailure, firstFailure_append, ← validateProps_eq_firstFailure comps]
      cases hvp : validateProps toks props with
      | error e => simp [hc, hvp]
      | ok u => cases u; simp [hc, hvp, ihq]
    · rw [Bool.not_eq_true] at hc
      have hfail : (checkFails comps toks (.comp t)) = true := by
        simp [checkFails, hc]
      rw [validateNode, nodeChecks, firstFailure, List.find?_cons_of_pos _ hfail]
      simp [hc, errOfCheck]
  · rfl
  · intro c rest ihc ihrest
    rw [validateChildren, childChecks, firstFailure_append, ← ihc]
    cases hvc : validateNode comps toks c with
    | error e => rfl
    | ok u => cases u; exact ihrest

/-- C4: a failing validation surfaces exactly the first failing membership
check in depth-first pre-order — each node's type before its props, its
props (in order) before its children (in order) — and every surfaced error
is `unknownComponent` or `unknownToken` (the image of `errOfCheck`). -/
theorem validate_eq_firstFailure (ds : DesignSystem) (s : Node) :
    validateSpecification (indexComponents ds) (indexTokens ds) s =
      firstFailure (indexComponents ds) (indexTokens ds) (nodeChecks s) :=
  (validateNode_eq_firstFailure (indexComponents ds) (indexTokens ds)).1 s

/-! ## All-or-nothing rendering (claim C3) -/

theorem resolvePropsParts_ok_of_validate (toks : Dict Token)
    (props : List (String × Value)) (h : validateProps toks props = .ok ()) :
    ∃ parts, resolvePropsParts toks props = .ok parts := by
  induction props with
  | nil => exact ⟨[], rfl⟩
  | cons p rest ih =>
    obtain ⟨k, v⟩ := p
    cases v with
    | str s =>
      cases hcs : containsSlash s
      · simp only [validateProps, hcs, Bool.false_and, Bool.false_eq_true,
          if_false] at h
        obtain ⟨parts, hp⟩ := ih h
        exact ⟨(k ++ "=\"" ++ s ++ "\"") :: parts,
          by simp [resolvePropsParts, hcs, hp]⟩
      · by_cases hdc : dictContains toks s = true
        · simp only [validateProps, hcs, hdc, Bool.not_true, Bool.and_false,
            if_false] at h
          obtain ⟨parts, hp⟩ := ih h
          have hsome : ∃ tk, dictGet? toks s = some tk := by
            rw [← Option.isSome_iff_exists, ← dictContains_eq_isSome]
            exact hdc
          obtain ⟨tk, htk⟩ := hsome
          exact ⟨(k ++ "=\"" ++ tk.value.getD s ++ "\"") :: parts,
            by simp [resolvePropsParts, hcs, resolveToken, htk, hp]⟩
        · rw [Bool.not_eq_true] at hdc
          simp [validateProps, hcs, hdc] at h
    | bool b =>
      simp only [validateProps] at h
      obtain ⟨parts, hp⟩ := ih h
      exact ⟨if b then k :: parts else parts, by simp [resolvePropsParts, hp]⟩
    | int n =>
      simp only [validateProps] at h
      obtain ⟨parts, hp⟩ := ih h
      exact ⟨(k ++ "=" ++ toString n) :: parts, by simp [resolvePropsParts, hp]⟩

theorem specToJsx_ok_of_validate (comps : Dict Component) (toks : Dict Token) :
    (∀ n, ∀ d : Nat, validateNode comps toks n = .ok () →
      ∃ out, specificationToJsx comps toks n d = .ok out) ∧
    (∀ l, ∀ d : Nat, validateChildren comps toks l = .ok () →
      ∃ outs, childrenToJsx comps toks l d = .ok outs) := by
  refine Node.myInduction _ _ ?_ ?_ ?_
  · intro t props children content ihq d h
    simp only [validateNode] at h
    by_cases hc : componentExists comps t = true
    · rw [if_neg (by simp [hc])] at h
      cases hvp : validateProps toks props with
      | error e => rw [hvp] at h; simp at h
      | ok u =>
        cases u
        rw [hvp] at h
        obtain ⟨parts, hparts⟩ := resolvePropsParts_ok_of_validate toks props hvp
        obtain ⟨outs, houts⟩ := ihq (d + 1) h
        have hrp : resolveProps toks props = .ok (String.intercalate " " parts) := by
          simp [resolveProps, hparts]
        by_cases hch : children.isEmpty = true
        · by_cases hco : content = ""
          · simp [specificationToJsx, hc, hrp, hch, hco]
          · simp [specificationToJsx, hc, hrp, hch, hco]
        · rw [Bool.not_eq_true] at hch
          simp [specificationToJsx, hc, hrp, hch, houts]
    · rw [Bool.not_eq_true] at hc
      rw [if_pos (by simp [hc])] at h
      simp at h
  · intro d _
    exact ⟨[], rfl⟩
  · intro c rest ihc ihrest d h
    simp only [validateChildren] at h
    cases hvc : validateNode comps toks c with
    | error e => rw [hvc] at h; simp at h
    | ok u =>
      cases u
      rw [hvc] at h
      obtain ⟨out, hout⟩ := ihc d hvc
      obtain ⟨outs, houts⟩ := ihrest d h
      simp [childrenToJsx, hout, houts]

/-- C3: the facade either propagates the (first) validation error and
produces no markup at all, or returns the full result record; when
validation succeeds, the error branches inside the compiler are
unreachable and `render_design_specification` returns the full triple. -/
theorem render_allOrNothing (ds : DesignSystem) (s : Node) :
    (∀ e, validateSpecification (indexComponents ds) (indexTokens ds) s = .error e →
      renderDesignSpecification ds s = .error e) ∧
    (validateSpecification (indexComponents ds) (indexTokens ds) s = .ok () →
      ∃ jsx, specificationToJsx (indexComponents ds) (indexTokens ds) s 0 = .ok jsx ∧
        renderDesignSpecification ds s =
          .ok ⟨jsx, s, extractTokensFromSpec (indexTokens ds) s,
            extractComponentsFromSpec (indexComponents ds) s, true⟩) := by
  constructor
  · intro e he
    rw [renderDesignSpecification, he]
  · intro h
    obtain ⟨jsx, hjsx⟩ :=
      (specToJsx_ok_of_validate (indexComponents ds) (indexTokens ds)).1 s 0 h
    exact ⟨jsx, hjsx, by rw [renderDesignSpecification, h, hjsx]⟩

/-- Witness for C3 at concrete inputs: an invalid spec fails with the
validation error and no markup; the valid example spec renders fully. -/
theorem render_allOrNothing_witness :
    renderDesignSpecification exampleDS (.mk "Toggle" [] [] "") =
      .error (.unknownComponent "Toggle") ∧
    (∃ jsx, specificationToJsx (indexComponents exampleDS) (indexTokens exampleDS)
        exampleButton 0 = .ok jsx ∧
      renderDesignSpecification exampleDS exampleButton =
        .ok ⟨jsx, exampleButton, extractTokensFromSpec (indexTokens exampleDS) exampleButton,
          extractComponentsFromSpec (indexComponents exampleDS) exampleButton, true⟩) :=
  ⟨(render_allOrNothing exampleDS (.mk "Toggle" [] [] "")).1
      (.unknownComponent "Toggle") rfl,
    (render_allOrNothing exampleDS exampleButton).2 rfl⟩

/-! ## Emission shape (claims C2, C9, C10) -/

/-- C2: the compiler self-closes exactly when a node has neither non-empty
content nor non-empty children: with children it emits the opening tag,
one compiled line per child (newline-joined, each at depth one greater),
and the closing tag; with content only it inlines the content; and the
spec's nested example compiles to an opening Container tag, one indented
Text element containing Hi, and a closing tag. -/
theorem specToJsx_shape :
    (∀ comps toks t props children content depth jp,
      componentExists comps t = true →
      resolveProps toks props = Except.ok jp →
      children ≠ [] →
      specificationToJsx comps toks (.mk t props children content) depth =
        (childrenToJsx comps toks children (depth + 1)).map
          (fun lines => indent depth ++ "<" ++ t ++ " " ++ jp ++ ">\n" ++
            String.intercalate "\n" lines ++ "\n" ++ indent depth ++ "</" ++ t ++ ">")) ∧
    (∀ comps toks t props content depth jp,
      componentExists comps t = true →
      resolveProps toks props = Except.ok jp →
      content ≠ "" →
      specificationToJsx comps toks (.mk t props [] content) depth =
        .ok (indent depth ++ "<" ++ t ++ " " ++ jp ++ ">" ++ content ++ "</" ++ t ++ ">")) ∧
    (∀ comps toks t props depth jp,
      componentExists comps t = true →
      resolveProps toks props = Except.ok jp →
      specificationToJsx comps toks (.mk t props [] "") depth =
        .ok (indent depth ++ "<" ++ t ++ " " ++ jp ++ " />")) ∧
    specificationToJsx (indexComponents exampleDS) (indexTokens exampleDS) exampleTree 0 =
      .ok ("<Container >\n  <Text >Hi</Text>\n</Container>") := by
  refine ⟨?_, ?_, ?_, rfl⟩
  · intro comps toks t props children content depth jp hc hrp hne
    match children, hne with
    | c :: cs, _ =>
      cases hcj : childrenToJsx comps toks (c :: cs) (depth + 1) with
      | error e => simp [specificationToJsx, hc, hrp, hcj, Except.map]
      | ok lines => simp [specificationToJsx, hc, hrp, hcj, Except.map]
  · intro comps toks t props content depth jp hc hrp hne
    simp [specificationToJsx, hc, hrp, hne]
  · intro comps toks t props depth jp hc hrp
    simp [specificationToJsx, hc, hrp]

/-- Witness for C2: the content branch at the example's Text node, depth 1. -/
theorem specToJsx_shape_witness :
    specificationToJsx (indexComponents exampleDS) (indexTokens exampleDS)
        (.mk "Text" [] [] "Hi") 1 =
      .ok (indent 1 ++ "<" ++ "Text" ++ " " ++ "" ++ ">" ++ "Hi" ++ "</" ++ "Text" ++ ">") :=
  specToJsx_shape.2.1 (indexComponents exampleDS) (indexTokens exampleDS)
    "Text" [] "Hi" 1 "" rfl rfl (by decide)

/-- C9: for a node with both non-empty children and non-empty content, the
output is that of the same node with the content erased — the content is
silently omitted — and under the compilation preconditions the emitted
markup is the opening tag, compiled children, closing tag. -/
theorem childrenTakePrecedence :
    (∀ comps toks t props children content d, children ≠ [] → content ≠ "" →
      specificationToJsx comps toks (.mk t props children content) d =
        specificationToJsx comps toks (.mk t props children "") d) ∧
    (∀ comps toks t props children content d jp, children ≠ [] → content ≠ "" →
      componentExists comps t = true → resolveProps toks props = Except.ok jp →
      specificationToJsx comps toks (.mk t props children content) d =
        (childrenToJsx comps toks children (d + 1)).map (fun lines =>
          indent d ++ "<" ++ t ++ " " ++ jp ++ ">\n" ++
          String.intercalate "\n" lines ++ "\n" ++ indent d ++ "</" ++ t ++ ">")) := by
  constructor
  · intro comps toks t props children content d hch hco
    match children, hch with
    | c :: cs, _ => simp [specificationToJsx]
  · intro comps toks t props children content d jp hch hco hc hrp
    match children, hch with
    | c :: cs, _ =>
      cases hcj : childrenToJsx comps toks (c :: cs) (d + 1) with
      | error e => simp [specificationToJsx, hc, hrp, hcj, Except.map]
      | ok lines => simp [specificationToJsx, hc, hrp, hcj, Except.map]

/-- Witness for C9: a Container with one Text child and a discarded
content string. -/
theorem childrenTakePrecedence_witness :
    specificationToJsx (indexComponents exampleDS) (indexTokens exampleDS)
        (.mk "Container" [] [.mk "Text" [] [] "Hi"] "Bye") 0 =
      specificationToJsx (indexComponents exampleDS) (indexTokens exampleDS)
        (.mk "Container" [] [.mk "Text" [] [] "Hi"] "") 0 :=
  childrenTakePrecedence.1 (indexComponents exampleDS) (indexTokens exampleDS)
    "Container" [] [.mk "Text" [] [] "Hi"] "Bye" 0 (by simp) (by decide)

/-- C10: a slash-containing string in a `content` field is never treated
as a token reference: validation is entirely independent of every
`content` field in the tree, and compilation emits the content string
verbatim between the tags without resolving it. -/
theorem contentNeverTokenChecked :
    (∀ comps toks s, validateNode comps toks (eraseContent s) =
      validateNode comps toks s) ∧
    (∀ comps toks t props c d jp, c ≠ "" → containsSlash c = true →
      componentExists comps t = true → resolveProps toks props = Except.ok jp →
      specificationToJsx comps toks (.mk t props [] c) d =
        .ok (indent d ++ "<" ++ t ++ " " ++ jp ++ ">" ++ c ++ "</" ++ t ++ ">")) := by
  constructor
  · intro comps toks
    refine (Node.myInduction
      (fun s => validateNode comps toks (eraseContent s) = validateNode comps toks s)
      (fun l => validateChildren comps toks (eraseContentChildren l) =
        validateChildren comps toks l) ?_ ?_ ?_).1
    · intro t props children content ihq
      simp only [eraseContent, validateNode]
      rw [ihq]
    · rfl
    · intro c rest ihc ihrest
      simp only [eraseContentChildren, validateChildren]
      rw [ihc, ihrest]
  · intro comps toks t props c d jp hco hcs hc hrp
    simp [specificationToJsx, hc, hrp, hco]

/-- Witness for C10: content `ghost/999` names no token, yet validation is
unaffected and compilation emits it verbatim. -/
theorem contentNeverTokenChecked_witness :
    (validateNode (indexComponents exampleDS) (indexTokens exampleDS)
        (eraseContent (.mk "Text" [] [] "ghost/999")) =
      validateNode (indexComponents exampleDS) (indexTokens exampleDS)
        (.mk "Text" [] [] "ghost/999")) ∧
    specificationToJsx (indexComponents exampleDS) (indexTokens exampleDS)
        (.mk "Text" [] [] "ghost/999") 0 =
      .ok (indent 0 ++ "<" ++ "Text" ++ " " ++ "" ++ ">" ++ "ghost/999" ++
        "</" ++ "Text" ++ ">") :=
  ⟨contentNeverTokenChecked.1 (indexComponents exampleDS) (indexTokens exampleDS)
      (.mk "Text" [] [] "ghost/999"),
    contentNeverTokenChecked.2 (indexComponents exampleDS) (indexTokens exampleDS)
      "Text" [] "ghost/999" 0 "" (by decide) (by decide) rfl rfl⟩

/-! ## Prop resolution (claims C5, C6) -/

/-- C5: when compiling a node's props, every literal
(non-token-reference) value passes through into the emitted attributes
unchanged and independently of the token index, and every
token-reference value (a string containing a slash) is replaced by the
referenced token's resolved `value` field — stated for arbitrary mixed
props lists via the pointwise `expectedPropParts` decomposition and an
unconditional append decomposition, with singleton, all-literal,
mixed-list and full-render instances; the spec's Button example renders
with the resolved color, content Go, and singleton
used-token/used-component sets. -/
theorem propsPassThrough :
    (∀ toks props, props.all (fun p => propOk toks p.2) = true →
      resolvePropsParts toks props = .ok (expectedPropParts toks props)) ∧
    (∀ toks (a b : List (String × Value)),
      resolvePropsParts toks (a ++ b) =
        match resolvePropsParts toks a with
        | .error e => .error e
        | .ok pa =>
          match resolvePropsParts toks b with
          | .error e => .error e
          | .ok pb => .ok (pa ++ pb)) ∧
    (∀ toks k v, isTokenReference v = false →
      resolvePropsParts toks [(k, v)] = .ok (literalParts k v)) ∧
    (∀ toks props, (∀ p ∈ props, isTokenReference p.2 = false) →
      resolvePropsParts toks props =
        .ok (props.flatMap (fun p => literalParts p.1 p.2))) ∧
    (∀ toks k s tk, containsSlash s = true → dictGet? toks s = some tk →
      resolvePropsParts toks [(k, .str s)] =
        .ok [k ++ "=\"" ++ tk.value.getD s ++ "\""]) ∧
    resolvePropsParts (indexTokens exampleDS)
        [("backgroundColor", .str "primary/500"), ("label", .str "Go"),
          ("width", .int 42), ("disabled", .bool false)] =
      .ok ["backgroundColor=\"#3B82F6\"", "label=\"Go\"", "width=42"] ∧
    renderDesignSpecification exampleDS exampleButton =
      .ok ⟨"<Button backgroundColor=\"#3B82F6\">Go</Button>", exampleButton,
        ["primary/500"], ["Button"], true⟩ := by
  refine ⟨?_, ?_, ?_, ?_, ?_, rfl, rfl⟩
  · intro toks props h
    induction props with
    | nil => rfl
    | cons p rest ih =>
      obtain ⟨k, v⟩ := p
      rw [List.all_cons, Bool.and_eq_true] at h
      have hrest := ih h.2
      cases v with
      | str s =>
        cases hcs : containsSlash s
        · simp [resolvePropsParts, hcs, hrest, expectedPropParts, literalParts]
        · have hdc : dictContains toks s = true := by
            have hp := h.1
            simpa [propOk, hcs] using hp
          have hsome : ∃ tk, dictGet? toks s = some tk := by
            rw [← Option.isSome_iff_exists, ← dictContains_eq_isSome]
            exact hdc
          obtain ⟨tk, htk⟩ := hsome
          simp [resolvePropsParts, hcs, resolveToken, htk, hrest,
            expectedPropParts, resolvedTokenValue, literalParts]
      | bool b =>
        cases b <;>
          simp [resolvePropsParts, hrest, expectedPropParts, literalParts]
      | int n =>
        simp [resolvePropsParts, hrest, expectedPropParts, literalParts]
  · intro toks a b
    induction a with
    | nil =>
      cases hb : resolvePropsParts toks b <;> simp [resolvePropsParts, hb]
    | cons p a ih =>
      obtain ⟨k, v⟩ := p
      rw [List.cons_append]
      cases v with
      | str s =>
        cases hcs : containsSlash s
        · cases ha : resolvePropsParts toks a <;>
            cases hb : resolvePropsParts toks b <;>
              simp [resolvePropsParts, hcs, ih, ha, hb]
        · cases hrt : resolveToken toks s with
          | error e => simp [resolvePropsParts, hcs, hrt]
          | ok tv =>
            cases ha : resolvePropsParts toks a <;>
              cases hb : resolvePropsParts toks b <;>
                simp [resolvePropsParts, hcs, hrt, ih, ha, hb]
      | bool c =>
        cases c <;>
          (cases ha : resolvePropsParts toks a <;>
            cases hb : resolvePropsParts toks b <;>
              simp [resolvePropsParts, ih, ha, hb])
      | int n =>
        cases ha : resolvePropsParts toks a <;>
          cases hb : resolvePropsParts toks b <;>
            simp [resolvePropsParts, ih, ha, hb]
  · intro toks k v hv
    cases v with
    | str s =>
      have hcs : containsSlash s = false := by simpa [isTokenReference] using hv
      simp [resolvePropsParts, hcs, literalParts]
    | bool b => cases b <;> simp [resolvePropsParts, literalParts]
    | int n => simp [resolvePropsParts, literalParts]
  · intro toks props h
    induction props with
    | nil => rfl
    | cons p rest ih =>
      obtain ⟨k, v⟩ := p
      have hv : isTokenReference v = false := h (k, v) (List.mem_cons_self _ _)
      have hrest := ih (fun q hq => h q (List.mem_cons_of_mem _ hq))
      cases v with
      | str s =>
        have hcs : containsSlash s = false := by simpa [isTokenReference] using hv
        simp [resolvePropsParts, hcs, hrest, literalParts]
      | bool b =>
        cases b <;> simp [resolvePropsParts, hrest, literalParts]
      | int n =>
        simp [resolvePropsParts, hrest, literalParts]
  · intro toks k s tk hcs htk
    simp [resolvePropsParts, hcs, resolveToken, htk]

/-- Witness for C5: a mixed props list — a token reference next to
string, int and bool literals — resolves pointwise with the reference
replaced and the literals passed through; plus singleton literal and
singleton token-reference applications at concrete inputs. -/
theorem propsPassThrough_witness :
    (resolvePropsParts (indexTokens exampleDS)
        [("backgroundColor", Value.str "primary/500"), ("label", Value.str "Go"),
          ("width", Value.int 42), ("disabled", Value.bool false)] =
      .ok (expectedPropParts (indexTokens exampleDS)
        [("backgroundColor", Value.str "primary/500"), ("label", Value.str "Go"),
          ("width", Value.int 42), ("disabled", Value.bool false)])) ∧
    resolvePropsParts (indexTokens exampleDS) [("label", Value.str "Go")] =
      .ok (literalParts "label" (Value.str "Go")) ∧
    resolvePropsParts (indexTokens exampleDS)
        [("backgroundColor", Value.str "primary/500")] =
      .ok ["backgroundColor" ++ "=\"" ++
        (Token.mk "primary/500" (some "#3B82F6")).value.getD "primary/500" ++ "\""] :=
  ⟨propsPassThrough.1 (indexTokens exampleDS)
      [("backgroundColor", Value.str "primary/500"), ("label", Value.str "Go"),
        ("width", Value.int 42), ("disabled", Value.bool false)] (by decide),
    propsPassThrough.2.2.1 (indexTokens exampleDS) "label" (Value.str "Go")
      (by decide),
    propsPassThrough.2.2.2.2.1 (indexTokens exampleDS) "backgroundColor"
      "primary/500" ⟨"primary/500", some "#3B82F6"⟩ (by decide) rfl⟩

/-- Counterexample to C6: the compiler does detect and report unresolvable
references — an unknown component type and an unknown token both make
`specification_to_jsx` raise, rather than being ignored as mere caller
precondition violations. -/
theorem compilerRechecks_counterexample :
    specificationToJsx [] [] (.mk "X" [] [] "") 0 =
      .error (.unknownComponent "X") ∧
    specificationToJsx [("B", ⟨"B"⟩)] [] (.mk "B" [("c", .str "a/b")] [] "") 0 =
      .error (.unknownToken "a/b") :=
  ⟨rfl, rfl⟩

/-- C6 as amended: the compiler re-checks while emitting — a node whose
type is absent from the component index makes it raise
`unknownComponent`, and a token-reference-shaped prop value absent from
the token index makes it raise `unknownToken`. -/
theorem compilerRechecks :
    (∀ comps toks t props ch ct d, componentExists comps t = false →
      specificationToJsx comps toks (.mk t props ch ct) d =
        .error (.unknownComponent t)) ∧
    (∀ comps toks t k s props ch ct d, componentExists comps t = true →
      containsSlash s = true → dictContains toks s = false →
      specificationToJsx comps toks (.mk t ((k, .str s) :: props) ch ct) d =
        .error (.unknownToken s)) := by
  constructor
  · intro comps toks t props ch ct d h
    simp [specificationToJsx, h]
  · intro comps toks t k s props ch ct d hc hcs hdc
    have hnone : dictGet? toks s = none := by
      cases hg : dictGet? toks s with
      | none => rfl
      | some tk =>
        rw [dictContains_eq_isSome, hg] at hdc
        simp at hdc
    simp [specificationToJsx, hc, resolveProps, resolvePropsParts, hcs,
      resolveToken, hnone]

/-- Witness for C6's amended statement: concrete unknown component and
unknown token inputs make the compiler raise. -/
theorem compilerRechecks_witness :
    specificationToJsx (indexComponents exampleDS) (indexTokens exampleDS)
        (.mk "Ghost" [] [] "") 3 = .error (.unknownComponent "Ghost") ∧
    specificationToJsx (indexComponents exampleDS) (indexTokens exampleDS)
        (.mk "Button" [("c", .str "accent/900")] [] "") 0 =
      .error (.unknownToken "accent/900") :=
  ⟨compilerRechecks.1 (indexComponents exampleDS) (indexTokens exampleDS)
      "Ghost" [] [] "" 3 rfl,
    compilerRechecks.2 (indexComponents exampleDS) (indexTokens exampleDS)
      "Button" "c" "accent/900" [] [] "" 0 rfl (by decide) rfl⟩

/-! ## Extraction as sets (claim C7) -/

theorem mem_setAdd (a : List String) (x y : String) :
    y ∈ setAdd a x ↔ y ∈ a ∨ y = x := by
  unfold setAdd
  by_cases h : a.contains x = true
  · rw [if_pos h]
    have hx : x ∈ a := List.elem_iff.mp h
    constructor
    · exact Or.inl
    · intro hy
      cases hy with
      | inl hy => exact hy
      | inr hy => rw [hy]; exact hx
  · rw [if_neg h]
    simp [List.mem_append]

theorem nodup_setAdd (a : List String) (x : String) (h : a.Nodup) :
    (setAdd a x).Nodup := by
  unfold setAdd
  by_cases hc : a.contains x = true
  · rwa [if_pos hc]
  · rw [if_neg hc]
    have hx : x ∉ a := fun hm => hc (List.elem_iff.mpr hm)
    exact List.Nodup.append h (List.nodup_singleton x)
      (fun b hb hbx => hx ((List.mem_singleton.mp hbx) ▸ hb))

theorem mem_tokenRefsOfProps (toks : Dict Token) (props : List (String × Value))
    (acc : List String) (x : String) :
    x ∈ tokenRefsOfProps toks props acc ↔
      x ∈ acc ∨ (x ∈ nodeTokenRefs props ∧ dictContains toks x = true) := by
  induction props generalizing acc with
  | nil => simp [tokenRefsOfProps, nodeTokenRefs]
  | cons p rest ih =>
    obtain ⟨k, v⟩ := p
    have hstep : ∀ a : List String, tokenRefsOfProps toks ((k, v) :: rest) a =
        tokenRefsOfProps toks rest
          (match v with
           | .str s =>
             if containsSlash s && dictContains toks s then setAdd a s else a
           | _ => a) := fun a => rfl
    cases v with
    | str s =>
      by_cases hcs : containsSlash s = true
      · by_cases hdc : dictContains toks s = true
        · by_cases hx : x = s
          · subst hx
            simp [hstep, hcs, hdc, ih, mem_setAdd, nodeTokenRefs,
              List.filterMap_cons]
          · simp [hstep, hcs, hdc, ih, mem_setAdd, hx, nodeTokenRefs,
              List.filterMap_cons]
        · rw [Bool.not_eq_true] at hdc
          by_cases hx : x = s
          · subst hx
            simp [hstep, hcs, hdc, ih, nodeTokenRefs, List.filterMap_cons]
          · simp [hstep, hcs, hdc, ih, hx, nodeTokenRefs, List.filterMap_cons]
      · rw [Bool.not_eq_true] at hcs
        simp [hstep, hcs, ih, nodeTokenRefs, List.filterMap_cons]
    | bool b => simp [hstep, ih, nodeTokenRefs, List.filterMap_cons]
    | int n => simp [hstep, ih, nodeTokenRefs, List.filterMap_cons]

theorem nodup_tokenRefsOfProps (toks : Dict Token) (props : List (String × Value))
    (acc : List String) (h : acc.Nodup) :
    (tokenRefsOfProps toks props acc).Nodup := by
  induction props generalizing acc with
  | nil => exact h
  | cons p rest ih =>
    obtain ⟨k, v⟩ := p
    cases v with
    | str s =>
      have hstep : tokenRefsOfProps toks ((k, Value.str s) :: rest) acc =
          tokenRefsOfProps toks rest
            (if containsSlash s && dictContains toks s then setAdd acc s else acc) := rfl
      rw [hstep]
      by_cases hc : (containsSlash s && dictContains toks s) = true
      · rw [if_pos hc]
        exact ih _ (nodup_setAdd acc s h)
      · rw [if_neg hc]
        exact ih _ h
    | bool b => exact ih _ h
    | int n => exact ih _ h

theorem extractTokens_mem_nodup (toks : Dict Token) :
    (∀ n, ∀ acc : List String,
      (∀ x, x ∈ extractTokensNode toks n acc ↔
        x ∈ acc ∨ (x ∈ allTokenRefs n ∧ dictContains toks x = true)) ∧
      (acc.Nodup → (extractTokensNode toks n acc).Nodup)) ∧
    (∀ l, ∀ acc : List String,
      (∀ x, x ∈ extractTokensChildren toks l acc ↔
        x ∈ acc ∨ (x ∈ (allNodesChildren l).flatMap (fun m => nodeTokenRefs m.props) ∧
          dictContains toks x = true)) ∧
      (acc.Nodup → (extractTokensChildren toks l acc).Nodup)) := by
  refine Node.myInduction _ _ ?_ ?_ ?_
  · intro t props children content ihq acc
    constructor
    · intro x
      rw [extractTokensNode, (ihq _).1 x, mem_tokenRefsOfProps]
      simp only [allTokenRefs, allNodes, List.flatMap_cons, Node.props,
        List.mem_append]
      tauto
    · intro h
      rw [extractTokensNode]
      exact (ihq _).2 (nodup_tokenRefsOfProps toks props acc h)
  · intro acc
    constructor
    · intro x
      simp [extractTokensChildren, allNodesChildren]
    · intro h
      exact h
  · intro c rest ihc ihrest acc
    constructor
    · intro x
      rw [extractTokensChildren, (ihrest _).1 x, (ihc _).1 x]
      simp only [allNodesChildren, List.flatMap_append, List.mem_append]
      rw [← allTokenRefs]
      tauto
    · intro h
      rw [extractTokensChildren]
      exact (ihrest _).2 ((ihc _).2 h)

theorem extractComponents_mem_nodup (comps : Dict Component) :
    (∀ n, ∀ acc : List String,
      (∀ x, x ∈ extractComponentsNode comps n acc ↔
        x ∈ acc ∨ (x ∈ allTypes n ∧ x ≠ "" ∧ componentExists comps x = true)) ∧
      (acc.Nodup → (extractComponentsNode comps n acc).Nodup)) ∧
    (∀ l, ∀ acc : List String,
      (∀ x, x ∈ extractComponentsChildren comps l acc ↔
        x ∈ acc ∨ (x ∈ (allNodesChildren l).map Node.type ∧ x ≠ "" ∧
          componentExists comps x = true)) ∧
      (acc.Nodup → (extractComponentsChildren comps l acc).Nodup)) := by
  refine Node.myInduction _ _ ?_ ?_ ?_
  · intro t props children content ihq acc
    have hstep : extractComponentsNode comps (.mk t props children content) acc =
        extractComponentsChildren comps children
          (if t ≠ "" && componentExists comps t then setAdd acc t else acc) := rfl
    constructor
    · intro x
      rw [hstep, (ihq _).1 x]
      simp only [allTypes, allNodes, List.map_cons, Node.type, List.mem_cons]
      by_cases hc : (t ≠ "" && componentExists comps t) = true
      · rw [if_pos hc]
        have hcP : t ≠ "" ∧ componentExists comps t = true := by
          rw [Bool.and_eq_true, decide_eq_true_eq] at hc
          exact hc
        by_cases hx : x = t
        · subst hx
          simp only [mem_setAdd]
          tauto
        · simp only [mem_setAdd]
          tauto
      · rw [if_neg hc]
        have hcP : ¬ (t ≠ "" ∧ componentExists comps t = true) := by
          intro hcon
          apply hc
          rw [Bool.and_eq_true, decide_eq_true_eq]
          exact hcon
        by_cases hx : x = t
        · subst hx
          tauto
        · tauto
    · intro h
      rw [hstep]
      by_cases hc : (t ≠ "" && componentExists comps t) = true
      · rw [if_pos hc]
        exact (ihq _).2 (nodup_setAdd acc t h)
      · rw [if_neg hc]
        exact (ihq _).2 h
  · intro acc
    constructor
    · intro x
      simp [extractComponentsChildren, allNodesChildren]
    · intro h
      exact h
  · intro c rest ihc ihrest acc
    constructor
    · intro x
      rw [extractComponentsChildren, (ihrest _).1 x, (ihc _).1 x]
      simp only [allNodesChildren, List.map_append, List.mem_append]
      rw [← allTypes]
      tauto
    · intro h
      rw [extractComponentsChildren]
      exact (ihrest _).2 ((ihc _).2 h)

/-- Counterexample to C7: a type absent from the component index and a
token-reference-shaped prop value absent from the token index do appear
in the tree but are dropped by the extract functions, which filter by
index membership. -/
theorem extract_counterexample :
    extractComponentsFromSpec [] (.mk "Zzz" [] [] "") = [] ∧
    "Zzz" ∈ allTypes (.mk "Zzz" [] [] "") ∧
    extractTokensFromSpec [] (.mk "T" [("c", .str "a/b")] [] "") = [] ∧
    "a/b" ∈ allTokenRefs (.mk "T" [("c", .str "a/b")] [] "") := by
  refine ⟨rfl, ?_, rfl, ?_⟩ <;> decide

/-- C7 as amended: `extract_tokens_from_spec` returns, duplicate-free, the
token-reference-shaped prop values of the tree that are present in the
token index, and `extract_components_from_spec` returns, duplicate-free,
the non-empty node types of the tree that are present in the component
index. -/
theorem extract_sets :
    (∀ toks s x, x ∈ extractTokensFromSpec toks s ↔
      x ∈ allTokenRefs s ∧ dictContains toks x = true) ∧
    (∀ comps s x, x ∈ extractComponentsFromSpec comps s ↔
      x ∈ allTypes s ∧ x ≠ "" ∧ componentExists comps x = true) ∧
    (∀ toks s, (extractTokensFromSpec toks s).Nodup) ∧
    (∀ comps s, (extractComponentsFromSpec comps s).Nodup) := by
  refine ⟨?_, ?_, ?_, ?_⟩
  · intro toks s x
    rw [extractTokensFromSpec, ((extractTokens_mem_nodup toks).1 s []).1 x]
    simp
  · intro comps s x
    rw [extractComponentsFromSpec, ((extractComponents_mem_nodup comps).1 s []).1 x]
    simp
  · intro toks s
    exact ((extractTokens_mem_nodup toks).1 s []).2 List.nodup_nil
  · intro comps s
    exact ((extractComponents_mem_nodup comps).1 s []).2 List.nodup_nil

end AgenticDS
